import Mathlib

/-!
Verification of an in-memory key/value store with nested transactions
(`InMemoryDBClient` wrapped by `TransactionsHandler`).

The store's `data` dictionary is embedded as an insertion-ordered
association list (`List (String × Int)`), matching Python `dict`
semantics: overwriting an existing key replaces its value in place,
a fresh key is appended at the end.  The `counts` field is a
`defaultdict(int)`, i.e. a total function `Int → Int` that reads 0
for any bucket never touched.  The transaction log is a single flat
list mixing marker tokens and undo entries; the Python list appends
and pops at its tail, so here the log is kept most-recent-first
(list head = Python tail).
-/

/-- Read a key from a Python-style dict: first matching pair wins
(keys are unique in every reachable dict, see `KeysOk`). -/
def dictGet : List (String × Int) → String → Option Int
  | [], _ => none
  | (k', v) :: rest, k => if k' = k then some v else dictGet rest k

/-- Write a key into a Python-style dict: replace the value in place when
the key is present, append at the end otherwise. -/
def dictSet : List (String × Int) → String → Int → List (String × Int)
  | [], k, v => [(k, v)]
  | (k', w) :: rest, k, v =>
    if k' = k then (k, v) :: rest else (k', w) :: dictSet rest k v

/-- Remove a key from a Python-style dict.  Every pair carrying the key is
dropped; under the `KeysOk` invariant there is at most one such pair, so
this coincides with Python `del`. -/
def dictDelete : List (String × Int) → String → List (String × Int)
  | [], _ => []
  | (k', w) :: rest, k =>
    if k' = k then dictDelete rest k else (k', w) :: dictDelete rest k

/-- Number of keys currently mapped to `v` (the quantity the count index
is supposed to track). -/
def countKeys : List (String × Int) → Int → Nat
  | [], _ => 0
  | (_, w) :: rest, v => (if w = v then 1 else 0) + countKeys rest v

/-- Keys of the dict are pairwise distinct (true of every Python dict). -/
def KeysOk : List (String × Int) → Prop
  | [] => True
  | (k, _) :: rest => dictGet rest k = none ∧ KeysOk rest

/-- The failure kinds the code can raise.  `notFound` embeds the store's
`Exception("Key ... not found")`, `noActiveTransaction` the handler's
`Exception("No transaction to commit/rollback")`; `indexError` embeds the
`IndexError` Python would raise if `__apply_rollback__` ever evaluated
`transaction_log[-1]` on an empty list. -/
inductive DBError where
  | notFound (key : String)
  | noActiveTransaction
  | indexError
deriving DecidableEq, Repr

/-- The store: a dict of key/value pairs plus a `defaultdict(int)` count
index, embedded as a total function that is 0 on untouched buckets. -/
structure InMemoryDBClient where
  data : List (String × Int)
  counts : Int → Int

/-- Pointwise update of the count index (`self.counts[v] += δ`). -/
def updCount (f : Int → Int) (v δ : Int) : Int → Int :=
  fun x => if x = v then f x + δ else f x

/-- `InMemoryDBClient.__init__`: empty dict, all-zero count index. -/
def InMemoryDBClient.init : InMemoryDBClient :=
  { data := [], counts := fun _ => 0 }

/-- `InMemoryDBClient.get`: the current value, or `None` when unset. -/
def InMemoryDBClient.get (c : InMemoryDBClient) (key : String) : Option Int :=
  dictGet c.data key

/-- `InMemoryDBClient.set`: when the key already holds `old`, decrement
`counts[old]`; store the value; increment `counts[value]`. -/
def InMemoryDBClient.set (c : InMemoryDBClient) (key : String) (value : Int) :
    InMemoryDBClient :=
  let counts1 :=
    match dictGet c.data key with
    | some old => updCount c.counts old (-1)
    | none => c.counts
  { data := dictSet c.data key value, counts := updCount counts1 value 1 }

/-- `InMemoryDBClient.delete`: raise `notFound` when the key is unset,
otherwise decrement the old bucket and remove the key. -/
def InMemoryDBClient.delete (c : InMemoryDBClient) (key : String) :
    InMemoryDBClient × Option DBError :=
  match dictGet c.data key with
  | none => (c, some (DBError.notFound key))
  | some old =>
    ({ data := dictDelete c.data key, counts := updCount c.counts old (-1) }, none)

/-- `InMemoryDBClient.count`: read a bucket of the count index
(`defaultdict` reads 0 for an absent bucket). -/
def InMemoryDBClient.count (c : InMemoryDBClient) (value : Int) : Int :=
  c.counts value

/-- Store-level invariant: keys are unique and every bucket of the count
index equals the number of keys currently holding that value. -/
structure CInv (c : InMemoryDBClient) : Prop where
  keys_ok : KeysOk c.data
  counts_ok : ∀ v, c.counts v = (countKeys c.data v : Int)

/-- One undo record (`TransactionLogEntry` in the source): the key, its
value before the mutation (`none` when the key did not exist), and the
value after (`none` for a delete). -/
structure TransactionLogEntry where
  key : String
  old_value : Option Int
  new_value : Option Int
deriving DecidableEq, Repr

/-- `TransactionLogEntry.is_create_operation`: the entry records a set of
a previously-unset key. -/
def TransactionLogEntry.is_create_operation (e : TransactionLogEntry) : Bool :=
  e.old_value.isNone && e.new_value.isSome

/-- One element of the flat transaction log.  The Python list mixes the
string token `"BEGIN"` (`marker`) with `TransactionLogEntry` objects
(`entry`); the sum type embeds that dynamic distinction. -/
inductive LogItem where
  | marker : LogItem
  | entry : TransactionLogEntry → LogItem
deriving DecidableEq, Repr

/-- The coordinator: the wrapped store plus the flat transaction log.
The log is kept most-recent-first (Python appends/pops at the tail). -/
structure TransactionsHandler where
  client : InMemoryDBClient
  transaction_log : List LogItem

/-- `TransactionsHandler.transaction_active`: Python returns the log
itself, which is truthy exactly when non-empty. -/
def TransactionsHandler.transaction_active (h : TransactionsHandler) : Bool :=
  !h.transaction_log.isEmpty

/-- `TransactionsHandler.begin`: push the `"BEGIN"` marker. -/
def TransactionsHandler.begin (h : TransactionsHandler) : TransactionsHandler :=
  { h with transaction_log := LogItem.marker :: h.transaction_log }

/-- `TransactionsHandler.get`: delegate to the store. -/
def TransactionsHandler.get (h : TransactionsHandler) (key : String) : Option Int :=
  h.client.get key

/-- `TransactionsHandler.count`: delegate to the store. -/
def TransactionsHandler.count (h : TransactionsHandler) (value : Int) : Int :=
  h.client.count value

/-- `TransactionsHandler.set`: outside a transaction delegate directly;
inside, record an undo entry holding the key's current value first. -/
def TransactionsHandler.set (h : TransactionsHandler) (key : String) (value : Int) :
    TransactionsHandler :=
  if !h.transaction_active then { h with client := h.client.set key value }
  else
    let old_value := dictGet h.client.data key
    { client := h.client.set key value,
      transaction_log :=
        LogItem.entry ⟨key, old_value, some value⟩ :: h.transaction_log }

/-- `TransactionsHandler.delete`: raise `notFound` when the key is unset
(checked before anything is recorded); otherwise record an undo entry when
a transaction is active, then delegate to the store. -/
def TransactionsHandler.delete (h : TransactionsHandler) (key : String) :
    TransactionsHandler × Option DBError :=
  if (dictGet h.client.data key).isNone then (h, some (DBError.notFound key))
  else if !h.transaction_active then
    let r := h.client.delete key
    ({ h with client := r.1 }, r.2)
  else
    let old_value := dictGet h.client.data key
    let h1 :=
      { h with transaction_log :=
          LogItem.entry ⟨key, old_value, none⟩ :: h.transaction_log }
    let r := h1.client.delete key
    ({ h1 with client := r.1 }, r.2)

/-- `TransactionsHandler.commit`: raise when no transaction is active,
otherwise discard the whole log (all frames at once). -/
def TransactionsHandler.commit (h : TransactionsHandler) :
    TransactionsHandler × Option DBError :=
  if !h.transaction_active then (h, some DBError.noActiveTransaction)
  else ({ h with transaction_log := [] }, none)

/-- `TransactionsHandler.__apply_rollback__`: pop and undo entries until
the top of the log is the marker.  A creation entry is undone by deleting
the key, any other entry by restoring its before-value (Python passes
`entry.old_value` to `client.set`; the `getD 0` default is never exercised
because a non-creation entry of a reachable log always carries a
before-value, see `entryOk`).  Returns the remaining log, the mutated
store and the first error raised; `indexError` embeds the `IndexError` of
reading `transaction_log[-1]` on an empty list. -/
def applyRollback : List LogItem → InMemoryDBClient →
    List LogItem × InMemoryDBClient × Option DBError
  | [], c => ([], c, some DBError.indexError)
  | LogItem.marker :: rest, c => (LogItem.marker :: rest, c, none)
  | LogItem.entry e :: rest, c =>
    if e.is_create_operation then
      match c.delete e.key with
      | (c2, none) => applyRollback rest c2
      | (c2, some err) => (rest, c2, some err)
    else
      applyRollback rest (c.set e.key (e.old_value.getD 0))

/-- `TransactionsHandler.rollback`: raise when no transaction is active;
otherwise undo the innermost frame and pop its marker.  When the replay
itself raises, the exception propagates and the marker is not popped. -/
def TransactionsHandler.rollback (h : TransactionsHandler) :
    TransactionsHandler × Option DBError :=
  if !h.transaction_active then (h, some DBError.noActiveTransaction)
  else
    match applyRollback h.transaction_log h.client with
    | (log2, c2, none) => ({ client := c2, transaction_log := log2.tail }, none)
    | (log2, c2, some err) => ({ client := c2, transaction_log := log2 }, some err)

/-- The operations an external driver can invoke on the coordinator. -/
inductive Op where
  | set (key : String) (value : Int)
  | get (key : String)
  | delete (key : String)
  | count (value : Int)
  | begin
  | commit
  | rollback
deriving DecidableEq, Repr

/-- Set and delete are the mutating operations. -/
def Op.isMutation : Op → Bool
  | Op.set _ _ => true
  | Op.delete _ => true
  | _ => false

/-- One coordinator call: the resulting state and the error raised, if
any.  On an error the returned state is the state at the moment the
exception propagates (Python objects keep whatever mutations happened). -/
def step (h : TransactionsHandler) : Op → TransactionsHandler × Option DBError
  | Op.set key value => (h.set key value, none)
  | Op.get _ => (h, none)
  | Op.delete key => h.delete key
  | Op.count _ => (h, none)
  | Op.begin => (h.begin, none)
  | Op.commit => h.commit
  | Op.rollback => h.rollback

/-- Run a sequence of operations, continuing after errors (a raised
exception aborts only the call that produced it). -/
def runOps (h : TransactionsHandler) : List Op → TransactionsHandler
  | [] => h
  | op :: ops => runOps (step h op).1 ops

/-- The freshly constructed coordinator over a fresh store. -/
def initHandler : TransactionsHandler :=
  { client := InMemoryDBClient.init, transaction_log := [] }

/-- States reachable from the fresh coordinator by some call sequence. -/
def Reachable (h : TransactionsHandler) : Prop :=
  ∃ ops : List Op, runOps initHandler ops = h

/-- Iterate `rollback`, stopping at the first error. -/
def rollbackIter (h : TransactionsHandler) : Nat → TransactionsHandler × Option DBError
  | 0 => (h, none)
  | n + 1 =>
    match h.rollback with
    | (h2, none) => rollbackIter h2 n
    | (h2, some err) => (h2, some err)

/-- Run nested phases: each phase opens a scope with `begin` and then
issues its operations. -/
def runPhases (h : TransactionsHandler) : List (List Op) → TransactionsHandler
  | [] => h
  | ms :: rest => runPhases (runOps h.begin ms) rest

/-- Coherence of one undo entry with the store contents that are current
while it sits on top of the remaining log: a creation entry's key still
holds the created value, an overwrite entry's key holds the overwriting
value, a delete entry's key is unset.  A `(none, none)` entry never
occurs. -/
def entryOk (e : TransactionLogEntry) (d : List (String × Int)) : Prop :=
  match e.old_value, e.new_value with
  | none, some v => dictGet d e.key = some v
  | some _, some v => dictGet d e.key = some v
  | some _, none => dictGet d e.key = none
  | none, none => False

/-- The store `data` produced by undoing one entry, exactly as
`__apply_rollback__` computes it: delete the key of a creation entry,
write back the before-value otherwise. -/
def undoEntry (e : TransactionLogEntry) (d : List (String × Int)) :
    List (String × Int) :=
  if e.is_create_operation then dictDelete d e.key
  else dictSet d e.key (e.old_value.getD 0)

/-- The key-to-value mapping a dict denotes. -/
def lookupFun (d : List (String × Int)) : String → Option Int :=
  fun k => dictGet d k

/-- The snapshot relation: with current store contents `d` and flat log
`L`, the key-to-value mappings current at each still-open `begin`
(innermost first) are `snaps`.  A marker contributes the mapping current
when it was pushed; an undo entry constrains the store through `entryOk`
and rewinds it through `undoEntry`. -/
inductive LogSnap : List LogItem → List (String × Int) → List (String → Option Int) → Prop
  | nil (d : List (String × Int)) : LogSnap [] d []
  | marker (rest : List LogItem) (d : List (String × Int))
      (snaps : List (String → Option Int)) :
      LogSnap rest d snaps → LogSnap (LogItem.marker :: rest) d (lookupFun d :: snaps)
  | entry (e : TransactionLogEntry) (rest : List LogItem) (d : List (String × Int))
      (snaps : List (String → Option Int)) :
      entryOk e d → LogSnap rest (undoEntry e d) snaps →
      LogSnap (LogItem.entry e :: rest) d snaps

/-- The oldest element of the log is the marker pushed by the outermost
still-open `begin` (Python: `transaction_log[0] == "BEGIN"`). -/
def lastIsMarker : List LogItem → Bool
  | [] => false
  | [LogItem.marker] => true
  | [LogItem.entry _] => false
  | _ :: x :: rest => lastIsMarker (x :: rest)

/-- A list of log items consisting of undo entries only (no marker). -/
def EntriesOnly (L : List LogItem) : Prop :=
  ∀ x ∈ L, ∃ e, x = LogItem.entry e

/-- The reachable-state invariant of the coordinator: the store invariant,
frame-closedness of the log (empty, or oldest element a marker), and the
snapshot relation for some snapshot list. -/
structure HInv (h : TransactionsHandler) : Prop where
  cinv : CInv h.client
  closed : h.transaction_log = [] ∨ lastIsMarker h.transaction_log = true
  snap : ∃ snaps, LogSnap h.transaction_log h.client.data snaps

@[simp] theorem dictGet_nil (k : String) : dictGet [] k = none := rfl

theorem dictGet_cons (k' : String) (v : Int) (rest : List (String × Int)) (k : String) :
    dictGet ((k', v) :: rest) k = if k' = k then some v else dictGet rest k := rfl

theorem KeysOk_cons (k : String) (v : Int) (rest : List (String × Int)) :
    KeysOk ((k, v) :: rest) ↔ dictGet rest k = none ∧ KeysOk rest := Iff.rfl

@[simp] theorem dictGet_dictSet_self (d : List (String × Int)) (k : String) (v : Int) :
    dictGet (dictSet d k v) k = some v := by
  induction d with
  | nil => simp [dictSet, dictGet]
  | cons p rest ih =>
    obtain ⟨k', w⟩ := p
    by_cases hk : k' = k <;> simp [dictSet, dictGet, hk, ih]

theorem dictGet_dictSet_ne (d : List (String × Int)) (k k' : String) (v : Int)
    (h : k' ≠ k) : dictGet (dictSet d k v) k' = dictGet d k' := by
  have hne : ¬ (k = k') := fun h' => h (Eq.symm h')
  induction d with
  | nil => simp [dictSet, dictGet, hne]
  | cons p rest ih =>
    obtain ⟨k'', w⟩ := p
    by_cases hk : k'' = k
    · subst hk
      simp [dictSet, dictGet, hne]
    · by_cases hk' : k'' = k'
      · subst hk'
        simp [dictSet, dictGet, hk]
      · simp [dictSet, dictGet, hk, hk', ih]

@[simp] theorem dictGet_dictDelete_self (d : List (String × Int)) (k : String) :
    dictGet (dictDelete d k) k = none := by
  induction d with
  | nil => simp [dictDelete]
  | cons p rest ih =>
    obtain ⟨k', w⟩ := p
    by_cases hk : k' = k <;> simp [dictDelete, dictGet, hk, ih]

theorem dictGet_dictDelete_ne (d : List (String × Int)) (k k' : String)
    (h : k' ≠ k) : dictGet (dictDelete d k) k' = dictGet d k' := by
  induction d with
  | nil => simp [dictDelete]
  | cons p rest ih =>
    obtain ⟨k'', w⟩ := p
    by_cases hk : k'' = k
    · have hne : ¬ (k'' = k') := fun h' => h ((Eq.symm h').trans hk)
      have hne2 : ¬ (k = k') := fun h' => h (Eq.symm h')
      simp [dictDelete, dictGet, hk, hne, hne2, ih]
    · by_cases hk' : k'' = k'
      · subst hk'
        simp [dictDelete, dictGet, hk, ih]
      · simp [dictDelete, dictGet, hk, hk', ih]

theorem dictDelete_of_absent (d : List (String × Int)) (k : String)
    (h : dictGet d k = none) : dictDelete d k = d := by
  induction d with
  | nil => rfl
  | cons p rest ih =>
    obtain ⟨k', w⟩ := p
    by_cases hk : k' = k
    · simp [dictGet, hk] at h
    · simp only [dictGet, if_neg hk] at h
      simp [dictDelete, hk, ih h]

theorem KeysOk_dictSet (d : List (String × Int)) (k : String) (v : Int)
    (h : KeysOk d) : KeysOk (dictSet d k v) := by
  induction d with
  | nil => simp [dictSet, KeysOk, dictGet]
  | cons p rest ih =>
    obtain ⟨k', w⟩ := p
    obtain ⟨h1, h2⟩ := h
    by_cases hk : k' = k
    · subst hk
      simp only [dictSet, if_pos rfl, KeysOk_cons]
      exact ⟨h1, h2⟩
    · simp only [dictSet, if_neg hk, KeysOk_cons]
      refine ⟨?_, ih h2⟩
      rw [dictGet_dictSet_ne rest k k' v hk, h1]

theorem KeysOk_dictDelete (d : List (String × Int)) (k : String)
    (h : KeysOk d) : KeysOk (dictDelete d k) := by
  induction d with
  | nil => trivial
  | cons p rest ih =>
    obtain ⟨k', w⟩ := p
    obtain ⟨h1, h2⟩ := h
    by_cases hk : k' = k
    · simp only [dictDelete, if_pos hk]
      exact ih h2
    · simp only [dictDelete, if_neg hk, KeysOk_cons]
      refine ⟨?_, ih h2⟩
      rw [dictGet_dictDelete_ne rest k k' hk, h1]

theorem countKeys_dictSet_new (d : List (String × Int)) (k : String) (v u : Int)
    (h : dictGet d k = none) :
    countKeys (dictSet d k v) u = countKeys d u + (if v = u then 1 else 0) := by
  induction d with
  | nil => simp [dictSet, countKeys]
  | cons p rest ih =>
    obtain ⟨k', w⟩ := p
    by_cases hk : k' = k
    · simp [dictGet, hk] at h
    · simp only [dictGet, if_neg hk] at h
      simp only [dictSet, if_neg hk, countKeys, ih h]
      omega

theorem countKeys_dictSet_over (d : List (String × Int)) (k : String) (v x u : Int)
    (h : dictGet d k = some x) :
    countKeys (dictSet d k v) u + (if x = u then 1 else 0)
      = countKeys d u + (if v = u then 1 else 0) := by
  induction d with
  | nil => simp [dictGet] at h
  | cons p rest ih =>
    obtain ⟨k', w⟩ := p
    by_cases hk : k' = k
    · subst hk
      have hw : w = x := by simpa [dictGet] using h
      subst hw
      simp only [dictSet, if_pos rfl, countKeys]
      omega
    · simp only [dictGet, if_neg hk] at h
      simp only [dictSet, if_neg hk, countKeys]
      have := ih h
      omega

theorem countKeys_dictDelete (d : List (String × Int)) (k : String) (x u : Int)
    (hk : dictGet d k = some x) (hok : KeysOk d) :
    countKeys (dictDelete d k) u + (if x = u then 1 else 0) = countKeys d u := by
  induction d with
  | nil => simp [dictGet] at hk
  | cons p rest ih =>
    obtain ⟨k', w⟩ := p
    obtain ⟨h1, h2⟩ := hok
    by_cases hkk : k' = k
    · have hx : w = x := by
        have hh := hk
        simp only [dictGet, if_pos hkk, Option.some.injEq] at hh
        exact hh
      have h1' : dictGet rest k = none := by rw [← hkk]; exact h1
      have hd : dictDelete ((k', w) :: rest) k = dictDelete rest k := by
        simp only [dictDelete, if_pos hkk]
      rw [hd, dictDelete_of_absent rest k h1']
      simp only [countKeys, hx]
      omega
    · simp only [dictGet, if_neg hkk] at hk
      simp only [dictDelete, if_neg hkk, countKeys]
      have := ih hk h2
      omega

theorem dictGet_all_none_eq_nil (d : List (String × Int))
    (h : ∀ k, dictGet d k = none) : d = [] := by
  cases d with
  | nil => rfl
  | cons p rest =>
    obtain ⟨k, v⟩ := p
    have := h k
    simp [dictGet] at this

/-- Two dicts with duplicate-free keys and identical reads have the same
value-count profile. -/
theorem countKeys_congr : ∀ (d d' : List (String × Int)), KeysOk d → KeysOk d' →
    (∀ k, dictGet d k = dictGet d' k) → ∀ v, countKeys d v = countKeys d' v := by
  intro d
  induction d with
  | nil =>
    intro d' _ hd' h v
    have hnil : d' = [] := dictGet_all_none_eq_nil d' (fun k => (h k).symm)
    simp [hnil]
  | cons p rest ih =>
    intro d' hd hd' h v
    obtain ⟨k, w⟩ := p
    obtain ⟨h1, h2⟩ := hd
    have hk' : dictGet d' k = some w := by
      rw [← h k]
      simp [dictGet]
    have hrest : ∀ k', dictGet rest k' = dictGet (dictDelete d' k) k' := by
      intro k'
      by_cases hkk : k' = k
      · subst hkk
        simp [h1]
      · rw [dictGet_dictDelete_ne d' k k' hkk, ← h k']
        have hne : ¬ (k = k') := fun h' => hkk (Eq.symm h')
        simp [dictGet, hne]
    have hih := ih (dictDelete d' k) h2 (KeysOk_dictDelete d' k hd') hrest v
    have hdel := countKeys_dictDelete d' k w v hk' hd'
    simp only [countKeys]
    omega

theorem CInv_init : CInv InMemoryDBClient.init := by
  constructor
  · trivial
  · intro v
    simp [InMemoryDBClient.init, countKeys]

theorem InMemoryDBClient.set_data (c : InMemoryDBClient) (key : String) (value : Int) :
    (c.set key value).data = dictSet c.data key value := rfl

theorem CInv_set (c : InMemoryDBClient) (key : String) (value : Int)
    (h : CInv c) : CInv (c.set key value) := by
  constructor
  · exact KeysOk_dictSet c.data key value h.keys_ok
  · intro v
    cases hget : dictGet c.data key with
    | none =>
      have hck := countKeys_dictSet_new c.data key value v hget
      have hc := h.counts_ok v
      simp only [InMemoryDBClient.set, hget, updCount]
      rw [hck]
      push_cast
      split_ifs <;> omega
    | some old =>
      have hck := countKeys_dictSet_over c.data key value old v hget
      have hc := h.counts_ok v
      simp only [InMemoryDBClient.set, hget, updCount]
      split_ifs at hck ⊢ <;> push_cast at hck ⊢ <;> omega

theorem CInv_delete (c : InMemoryDBClient) (key : String) (old : Int)
    (hget : dictGet c.data key = some old) (h : CInv c) :
    (c.delete key).2 = none ∧ (c.delete key).1.data = dictDelete c.data key ∧
      CInv (c.delete key).1 := by
  have hdel : c.delete key =
      ({ data := dictDelete c.data key, counts := updCount c.counts old (-1) },
        none) := by
    simp [InMemoryDBClient.delete, hget]
  rw [hdel]
  refine ⟨rfl, rfl, ?_, ?_⟩
  · exact KeysOk_dictDelete c.data key h.keys_ok
  · intro v
    have hck := countKeys_dictDelete c.data key old v hget h.keys_ok
    have hc := h.counts_ok v
    simp only [updCount]
    split_ifs at hck ⊢ <;> omega

theorem InMemoryDBClient.delete_absent (c : InMemoryDBClient) (key : String)
    (hget : dictGet c.data key = none) :
    c.delete key = (c, some (DBError.notFound key)) := by
  simp [InMemoryDBClient.delete, hget]

theorem dictGet_dictSet (d : List (String × Int)) (k : String) (v : Int) (k' : String) :
    dictGet (dictSet d k v) k' = if k' = k then some v else dictGet d k' := by
  by_cases hk : k' = k
  · subst hk
    simp
  · simp [hk, dictGet_dictSet_ne d k k' v hk]

theorem dictGet_dictDelete (d : List (String × Int)) (k k' : String) :
    dictGet (dictDelete d k) k' = if k' = k then none else dictGet d k' := by
  by_cases hk : k' = k
  · subst hk
    simp
  · simp [hk, dictGet_dictDelete_ne d k k' hk]

theorem dictGet_undoEntry (e : TransactionLogEntry) (d : List (String × Int))
    (hok : entryOk e d) (k : String) :
    dictGet (undoEntry e d) k = if k = e.key then e.old_value else dictGet d k := by
  unfold entryOk at hok
  cases ho : e.old_value with
  | none =>
    cases hn : e.new_value with
    | none =>
      rw [ho, hn] at hok
      exact absurd hok (by simp)
    | some v =>
      have hcr : e.is_create_operation = true := by
        simp [TransactionLogEntry.is_create_operation, ho, hn]
      simp only [undoEntry, hcr, if_pos, dictGet_dictDelete, ho]
  | some x =>
    have hcr : e.is_create_operation = false := by
      simp [TransactionLogEntry.is_create_operation, ho]
    simp only [undoEntry, hcr, Bool.false_eq_true, if_false, ho, Option.getD_some,
      dictGet_dictSet]

theorem entryOk_congr (e : TransactionLogEntry) (d d' : List (String × Int))
    (hdd : ∀ k, dictGet d k = dictGet d' k) (h : entryOk e d) : entryOk e d' := by
  unfold entryOk at h ⊢
  cases ho : e.old_value with
  | none =>
    cases hn : e.new_value with
    | none =>
      rw [ho, hn] at h
      exact False.elim h
    | some v =>
      rw [ho, hn] at h
      show dictGet d' e.key = some v
      rw [← hdd]
      exact h
  | some x =>
    cases hn : e.new_value with
    | none =>
      rw [ho, hn] at h
      show dictGet d' e.key = none
      rw [← hdd]
      exact h
    | some v =>
      rw [ho, hn] at h
      show dictGet d' e.key = some v
      rw [← hdd]
      exact h

theorem LogSnap_nil_inv (d : List (String × Int)) (snaps : List (String → Option Int))
    (h : LogSnap [] d snaps) : snaps = [] := by
  cases h
  rfl

theorem LogSnap_marker_inv (rest : List LogItem) (d : List (String × Int))
    (snaps : List (String → Option Int)) (h : LogSnap (LogItem.marker :: rest) d snaps) :
    ∃ snaps', snaps = lookupFun d :: snaps' ∧ LogSnap rest d snaps' := by
  cases h with
  | marker _ _ snaps' hrest => exact ⟨snaps', rfl, hrest⟩

theorem LogSnap_entry_inv (e : TransactionLogEntry) (rest : List LogItem)
    (d : List (String × Int)) (snaps : List (String → Option Int))
    (h : LogSnap (LogItem.entry e :: rest) d snaps) :
    entryOk e d ∧ LogSnap rest (undoEntry e d) snaps := by
  cases h with
  | entry _ _ _ _ hok hrest => exact ⟨hok, hrest⟩

/-- The snapshot relation only looks at the store through its
key-to-value mapping. -/
theorem LogSnap_congr (L : List LogItem) (d : List (String × Int))
    (snaps : List (String → Option Int)) (hs : LogSnap L d snaps) :
    ∀ d', (∀ k, dictGet d k = dictGet d' k) → LogSnap L d' snaps := by
  induction hs with
  | nil d => exact fun d' _ => LogSnap.nil d'
  | marker rest d snaps hrest ih =>
    intro d' hdd
    have hfun : lookupFun d = lookupFun d' := funext fun k => hdd k
    rw [hfun]
    exact LogSnap.marker rest d' snaps (ih d' hdd)
  | entry e rest d snaps hok hrest ih =>
    intro d' hdd
    refine LogSnap.entry e rest d' snaps (entryOk_congr e d d' hdd hok) ?_
    refine ih (undoEntry e d') ?_
    intro k
    rw [dictGet_undoEntry e d hok k,
      dictGet_undoEntry e d' (entryOk_congr e d d' hdd hok) k]
    by_cases hk : k = e.key <;> simp [hk, hdd k]

theorem lastIsMarker_cons (a : LogItem) (x : LogItem) (rest : List LogItem) :
    lastIsMarker (a :: x :: rest) = lastIsMarker (x :: rest) := by
  cases a <;> rfl

theorem lastIsMarker_cons_ne_nil (a : LogItem) (L : List LogItem) (h : L ≠ []) :
    lastIsMarker (a :: L) = lastIsMarker L := by
  cases L with
  | nil => exact absurd rfl h
  | cons x rest => exact lastIsMarker_cons a x rest

theorem lastIsMarker_append (E L : List LogItem) (h : L ≠ []) :
    lastIsMarker (E ++ L) = lastIsMarker L := by
  induction E with
  | nil => rfl
  | cons a E' ih =>
    have hne : E' ++ L ≠ [] := by
      intro hc
      rcases List.append_eq_nil.mp hc with ⟨_, h2⟩
      exact h h2
    rw [List.cons_append, lastIsMarker_cons_ne_nil a (E' ++ L) hne, ih]

theorem EntriesOnly_nil : EntriesOnly [] := by
  intro x hx
  cases hx

theorem EntriesOnly_cons (e : TransactionLogEntry) (L : List LogItem)
    (h : EntriesOnly L) : EntriesOnly (LogItem.entry e :: L) := by
  intro x hx
  cases hx with
  | head => exact ⟨e, rfl⟩
  | tail _ hmem => exact h x hmem

/-- A non-empty log whose oldest element is a marker splits into an
entries-only top segment, the first marker, and the rest. -/
theorem log_decomp (L : List LogItem) (hne : L ≠ [])
    (hlast : lastIsMarker L = true) :
    ∃ E L0, L = E ++ LogItem.marker :: L0 ∧ EntriesOnly E := by
  induction L with
  | nil => exact absurd rfl hne
  | cons a rest ih =>
    cases a with
    | marker => exact ⟨[], rest, rfl, EntriesOnly_nil⟩
    | entry e =>
      cases rest with
      | nil => simp [lastIsMarker] at hlast
      | cons x rest' =>
        rw [lastIsMarker_cons (LogItem.entry e) x rest'] at hlast
        obtain ⟨E, L0, hsplit, hent⟩ := ih (by simp) hlast
        exact ⟨LogItem.entry e :: E, L0, by rw [hsplit, List.cons_append],
          EntriesOnly_cons e E hent⟩

theorem transaction_active_nil (h : TransactionsHandler)
    (hlog : h.transaction_log = []) : h.transaction_active = false := by
  simp [TransactionsHandler.transaction_active, hlog]

theorem transaction_active_ne_nil (h : TransactionsHandler)
    (hlog : h.transaction_log ≠ []) : h.transaction_active = true := by
  unfold TransactionsHandler.transaction_active
  cases hl : h.transaction_log with
  | nil => exact absurd hl hlog
  | cons a l => simp

theorem TransactionsHandler.set_inactive (h : TransactionsHandler) (key : String)
    (value : Int) (hlog : h.transaction_log = []) :
    h.set key value = { h with client := h.client.set key value } := by
  unfold TransactionsHandler.set
  rw [transaction_active_nil h hlog]
  rfl

theorem TransactionsHandler.set_active (h : TransactionsHandler) (key : String)
    (value : Int) (hlog : h.transaction_log ≠ []) :
    h.set key value =
      { client := h.client.set key value,
        transaction_log :=
          LogItem.entry ⟨key, dictGet h.client.data key, some value⟩
            :: h.transaction_log } := by
  unfold TransactionsHandler.set
  rw [transaction_active_ne_nil h hlog]
  rfl

theorem client_delete_present (c : InMemoryDBClient) (key : String) (x : Int)
    (hget : dictGet c.data key = some x) :
    c.delete key = (⟨dictDelete c.data key, updCount c.counts x (-1)⟩, none) := by
  simp [InMemoryDBClient.delete, hget]

theorem CInv_delete_rec (c : InMemoryDBClient) (key : String) (x : Int)
    (hget : dictGet c.data key = some x) (h : CInv c) :
    CInv ⟨dictDelete c.data key, updCount c.counts x (-1)⟩ := by
  have h3 := (CInv_delete c key x hget h).2.2
  rw [client_delete_present c key x hget] at h3
  exact h3

theorem TransactionsHandler.delete_absent_eq (h : TransactionsHandler) (key : String)
    (hget : dictGet h.client.data key = none) :
    h.delete key = (h, some (DBError.notFound key)) := by
  simp [TransactionsHandler.delete, hget]

theorem TransactionsHandler.delete_inactive (h : TransactionsHandler) (key : String)
    (x : Int) (hget : dictGet h.client.data key = some x)
    (hlog : h.transaction_log = []) :
    h.delete key =
      ({ h with client := ⟨dictDelete h.client.data key,
          updCount h.client.counts x (-1)⟩ }, none) := by
  unfold TransactionsHandler.delete
  rw [transaction_active_nil h hlog]
  simp [hget, client_delete_present h.client key x hget]

theorem TransactionsHandler.delete_active (h : TransactionsHandler) (key : String)
    (x : Int) (hget : dictGet h.client.data key = some x)
    (hlog : h.transaction_log ≠ []) :
    h.delete key =
      ({ client := ⟨dictDelete h.client.data key, updCount h.client.counts x (-1)⟩,
         transaction_log :=
           LogItem.entry ⟨key, some x, none⟩ :: h.transaction_log }, none) := by
  unfold TransactionsHandler.delete
  rw [transaction_active_ne_nil h hlog]
  simp [hget, client_delete_present h.client key x hget]

theorem TransactionsHandler.commit_nil (h : TransactionsHandler)
    (hlog : h.transaction_log = []) :
    h.commit = (h, some DBError.noActiveTransaction) := by
  unfold TransactionsHandler.commit
  rw [transaction_active_nil h hlog]
  rfl

theorem TransactionsHandler.commit_ne_nil (h : TransactionsHandler)
    (hlog : h.transaction_log ≠ []) :
    h.commit = ({ h with transaction_log := [] }, none) := by
  unfold TransactionsHandler.commit
  rw [transaction_active_ne_nil h hlog]
  rfl

theorem TransactionsHandler.rollback_nil (h : TransactionsHandler)
    (hlog : h.transaction_log = []) :
    h.rollback = (h, some DBError.noActiveTransaction) := by
  unfold TransactionsHandler.rollback
  rw [transaction_active_nil h hlog]
  rfl

/-- A mutation (set or delete) preserves the store invariant and the
snapshot relation with the same snapshot list, and only pushes undo
entries onto the log (none at all outside a transaction). -/
theorem step_mutation (h : TransactionsHandler) (op : Op)
    (snaps : List (String → Option Int)) (hmut : op.isMutation = true)
    (hc : CInv h.client)
    (hs : LogSnap h.transaction_log h.client.data snaps) :
    CInv (step h op).1.client ∧
    LogSnap (step h op).1.transaction_log (step h op).1.client.data snaps ∧
    ∃ E, EntriesOnly E ∧ (step h op).1.transaction_log = E ++ h.transaction_log ∧
      (h.transaction_log = [] → (step h op).1.transaction_log = []) := by
  cases op with
  | get key => simp [Op.isMutation] at hmut
  | count v => simp [Op.isMutation] at hmut
  | begin => simp [Op.isMutation] at hmut
  | commit => simp [Op.isMutation] at hmut
  | rollback => simp [Op.isMutation] at hmut
  | set key value =>
    by_cases hlog : h.transaction_log = []
    · rw [show step h (Op.set key value) = (h.set key value, none) from rfl,
        TransactionsHandler.set_inactive h key value hlog]
      refine ⟨CInv_set h.client key value hc, ?_, [], EntriesOnly_nil, by simp, fun _ => hlog⟩
      have hsn : snaps = [] := LogSnap_nil_inv h.client.data snaps (hlog ▸ hs)
      rw [hsn, hlog]
      exact LogSnap.nil _
    · rw [show step h (Op.set key value) = (h.set key value, none) from rfl,
        TransactionsHandler.set_active h key value hlog]
      have hok : entryOk ⟨key, dictGet h.client.data key, some value⟩
          (h.client.set key value).data := by
        unfold entryOk
        cases ho : dictGet h.client.data key with
        | none =>
          show dictGet (h.client.set key value).data key = some value
          rw [InMemoryDBClient.set_data]
          simp
        | some x =>
          show dictGet (h.client.set key value).data key = some value
          rw [InMemoryDBClient.set_data]
          simp
      refine ⟨CInv_set h.client key value hc, ?_,
        [LogItem.entry ⟨key, dictGet h.client.data key, some value⟩],
        ?_, by simp, fun hn => absurd hn hlog⟩
      · refine LogSnap.entry _ _ _ snaps hok ?_
        refine LogSnap_congr h.transaction_log h.client.data snaps hs _ ?_
        intro k
        rw [dictGet_undoEntry _ _ hok k]
        by_cases hk : k = key
        · subst hk
          simp
        · rw [if_neg hk, InMemoryDBClient.set_data,
            dictGet_dictSet_ne h.client.data key k value hk]
      · intro item hitem
        cases hitem with
        | head => exact ⟨_, rfl⟩
        | tail _ hmem => cases hmem
  | delete key =>
    cases hget : dictGet h.client.data key with
    | none =>
      rw [show step h (Op.delete key) = h.delete key from rfl,
        TransactionsHandler.delete_absent_eq h key hget]
      exact ⟨hc, hs, [], EntriesOnly_nil, by simp, fun hn => hn⟩
    | some x =>
      by_cases hlog : h.transaction_log = []
      · rw [show step h (Op.delete key) = h.delete key from rfl,
          TransactionsHandler.delete_inactive h key x hget hlog]
        refine ⟨CInv_delete_rec h.client key x hget hc, ?_, [], EntriesOnly_nil,
          by simp, fun _ => hlog⟩
        have hsn : snaps = [] := LogSnap_nil_inv h.client.data snaps (hlog ▸ hs)
        rw [hsn, hlog]
        exact LogSnap.nil _
      · rw [show step h (Op.delete key) = h.delete key from rfl,
          TransactionsHandler.delete_active h key x hget hlog]
        have hok : entryOk ⟨key, some x, none⟩ (dictDelete h.client.data key) := by
          unfold entryOk
          show dictGet (dictDelete h.client.data key) key = none
          simp
        refine ⟨CInv_delete_rec h.client key x hget hc, ?_,
          [LogItem.entry ⟨key, some x, none⟩], ?_, by simp, fun hn => absurd hn hlog⟩
        · refine LogSnap.entry _ _ _ snaps hok ?_
          refine LogSnap_congr h.transaction_log h.client.data snaps hs _ ?_
          intro k
          rw [dictGet_undoEntry _ _ hok k]
          by_cases hk : k = key
          · subst hk
            rw [if_pos rfl]
            exact hget
          · rw [if_neg hk, dictGet_dictDelete_ne h.client.data key k hk]
        · intro item hitem
          cases hitem with
          | head => exact ⟨_, rfl⟩
          | tail _ hmem => cases hmem

/-- A non-empty frame-closed log has at least one snapshot. -/
theorem LogSnap_snaps_cons : ∀ (E : List LogItem) (L0 : List LogItem)
    (d : List (String × Int)) (snaps : List (String → Option Int)),
    EntriesOnly E → LogSnap (E ++ LogItem.marker :: L0) d snaps →
    ∃ s snaps', snaps = s :: snaps' := by
  intro E
  induction E with
  | nil =>
    intro L0 d snaps _ hs
    obtain ⟨snaps', heq, _⟩ := LogSnap_marker_inv L0 d snaps hs
    exact ⟨lookupFun d, snaps', heq⟩
  | cons a E' ih =>
    intro L0 d snaps hent hs
    obtain ⟨e, hae⟩ := hent a (List.mem_cons_self a E')
    subst hae
    rw [List.cons_append] at hs
    obtain ⟨_, hrest⟩ := LogSnap_entry_inv e _ d snaps hs
    exact ih L0 (undoEntry e d) snaps (fun x hx => hent x (List.mem_cons_of_mem _ hx)) hrest

/-- Master lemma for `__apply_rollback__`: replaying an entries-only top
segment down to the first marker succeeds, restores the key-to-value
mapping recorded at the matching `begin` (the head snapshot), preserves
the store invariant, and leaves the rest of the log governed by the
remaining snapshots. -/
theorem applyRollback_ok : ∀ (E : List LogItem) (L0 : List LogItem)
    (c : InMemoryDBClient) (s : String → Option Int)
    (snaps : List (String → Option Int)),
    EntriesOnly E → LogSnap (E ++ LogItem.marker :: L0) c.data (s :: snaps) → CInv c →
    ∃ c', applyRollback (E ++ LogItem.marker :: L0) c = (LogItem.marker :: L0, c', none) ∧
      CInv c' ∧ (∀ k, dictGet c'.data k = s k) ∧ LogSnap L0 c'.data snaps := by
  intro E
  induction E with
  | nil =>
    intro L0 c s snaps _ hs hc
    obtain ⟨snaps', heq, hrest⟩ := LogSnap_marker_inv L0 c.data (s :: snaps) hs
    injection heq with h1 h2
    refine ⟨c, rfl, hc, ?_, ?_⟩
    · intro k
      rw [h1]
      rfl
    · rw [h2]
      exact hrest
  | cons a E' ih =>
    intro L0 c s snaps hent hs hc
    obtain ⟨e, hae⟩ := hent a (List.mem_cons_self a E')
    subst hae
    rw [List.cons_append] at hs
    obtain ⟨hok, hrest⟩ := LogSnap_entry_inv e _ c.data (s :: snaps) hs
    have hent' : EntriesOnly E' := fun x hx => hent x (List.mem_cons_of_mem _ hx)
    by_cases hcr : e.is_create_operation = true
    · have hold : e.old_value = none := by
        have := hcr
        unfold TransactionLogEntry.is_create_operation at this
        cases ho : e.old_value with
        | none => rfl
        | some x =>
          rw [ho] at this
          simp at this
      obtain ⟨v, hnew⟩ : ∃ v, e.new_value = some v := by
        have := hcr
        unfold TransactionLogEntry.is_create_operation at this
        cases hn : e.new_value with
        | none =>
          rw [hn] at this
          simp at this
        | some v => exact ⟨v, rfl⟩
      have hget : dictGet c.data e.key = some v := by
        have h' := hok
        unfold entryOk at h'
        rw [hold, hnew] at h'
        exact h'
      have hdel := client_delete_present c e.key v hget
      have hundo : undoEntry e c.data = dictDelete c.data e.key := by
        unfold undoEntry
        rw [hcr]
        rfl
      have hc2 : CInv ⟨dictDelete c.data e.key, updCount c.counts v (-1)⟩ :=
        CInv_delete_rec c e.key v hget hc
      rw [hundo] at hrest
      obtain ⟨c', happ, hc', hdd, hsnap⟩ :=
        ih L0 ⟨dictDelete c.data e.key, updCount c.counts v (-1)⟩ s snaps hent' hrest hc2
      refine ⟨c', ?_, hc', hdd, hsnap⟩
      rw [List.cons_append]
      show applyRollback (LogItem.entry e :: (E' ++ LogItem.marker :: L0)) c
        = (LogItem.marker :: L0, c', none)
      unfold applyRollback
      rw [hcr, if_pos rfl, hdel]
      exact happ
    · have hcr' : e.is_create_operation = false := by
        cases hb : e.is_create_operation with
        | false => rfl
        | true => exact absurd hb hcr
      have hundo : undoEntry e c.data = dictSet c.data e.key (e.old_value.getD 0) := by
        unfold undoEntry
        rw [hcr']
        rfl
      have hdata : (c.set e.key (e.old_value.getD 0)).data = undoEntry e c.data := by
        rw [hundo]
        rfl
      have hc2 : CInv (c.set e.key (e.old_value.getD 0)) :=
        CInv_set c e.key (e.old_value.getD 0) hc
      have hrest' : LogSnap (E' ++ LogItem.marker :: L0)
          (c.set e.key (e.old_value.getD 0)).data (s :: snaps) := by
        rw [hdata]
        exact hrest
      obtain ⟨c', happ, hc', hdd, hsnap⟩ :=
        ih L0 (c.set e.key (e.old_value.getD 0)) s snaps hent' hrest' hc2
      refine ⟨c', ?_, hc', hdd, hsnap⟩
      rw [List.cons_append]
      show applyRollback (LogItem.entry e :: (E' ++ LogItem.marker :: L0)) c
        = (LogItem.marker :: L0, c', none)
      unfold applyRollback
      rw [hcr']
      simp only [Bool.false_eq_true, if_false]
      exact happ

/-- Handler-level rollback on a frame-closed log: it succeeds, pops
exactly the innermost frame, and restores the mapping recorded at the
matching `begin`. -/
theorem rollback_ok (h : TransactionsHandler) (E L0 : List LogItem)
    (s : String → Option Int) (snaps : List (String → Option Int))
    (hlog : h.transaction_log = E ++ LogItem.marker :: L0) (hent : EntriesOnly E)
    (hs : LogSnap h.transaction_log h.client.data (s :: snaps))
    (hc : CInv h.client) :
    h.rollback = ({ client := (h.rollback).1.client, transaction_log := L0 }, none) ∧
    CInv (h.rollback).1.client ∧
    (∀ k, dictGet (h.rollback).1.client.data k = s k) ∧
    LogSnap L0 (h.rollback).1.client.data snaps := by
  rw [hlog] at hs
  obtain ⟨c', happ, hc', hdd, hsnap⟩ := applyRollback_ok E L0 h.client s snaps hent hs hc
  have hne : h.transaction_log ≠ [] := by
    rw [hlog]
    intro hcon
    rcases List.append_eq_nil.mp hcon with ⟨_, h2⟩
    cases h2
  have hact := transaction_active_ne_nil h hne
  have hr : h.rollback = ({ client := c', transaction_log := L0 }, none) := by
    unfold TransactionsHandler.rollback
    rw [hact]
    simp only [Bool.not_true, Bool.false_eq_true, if_false]
    rw [hlog, happ]
    rfl
  rw [hr]
  exact ⟨rfl, hc', hdd, hsnap⟩

theorem Inv_init : HInv initHandler := by
  refine ⟨CInv_init, Or.inl rfl, [], LogSnap.nil _⟩

theorem Inv_step (h : TransactionsHandler) (op : Op) (hi : HInv h) :
    HInv (step h op).1 := by
  cases op with
  | get key => exact hi
  | count v => exact hi
  | set key value =>
    obtain ⟨snaps, hs⟩ := hi.snap
    obtain ⟨hc', hs', E, hent, hlog', hnil⟩ :=
      step_mutation h (Op.set key value) snaps rfl hi.cinv hs
    refine ⟨hc', ?_, snaps, hs'⟩
    by_cases hl : h.transaction_log = []
    · exact Or.inl (hnil hl)
    · right
      rw [hlog', lastIsMarker_append E h.transaction_log hl]
      rcases hi.closed with hcl | hcl
      · exact absurd hcl hl
      · exact hcl
  | delete key =>
    obtain ⟨snaps, hs⟩ := hi.snap
    obtain ⟨hc', hs', E, hent, hlog', hnil⟩ :=
      step_mutation h (Op.delete key) snaps rfl hi.cinv hs
    refine ⟨hc', ?_, snaps, hs'⟩
    by_cases hl : h.transaction_log = []
    · exact Or.inl (hnil hl)
    · right
      rw [hlog', lastIsMarker_append E h.transaction_log hl]
      rcases hi.closed with hcl | hcl
      · exact absurd hcl hl
      · exact hcl
  | begin =>
    obtain ⟨snaps, hs⟩ := hi.snap
    refine ⟨hi.cinv, ?_, lookupFun h.client.data :: snaps, ?_⟩
    · right
      show lastIsMarker (LogItem.marker :: h.transaction_log) = true
      cases hl : h.transaction_log with
      | nil => rfl
      | cons a rest =>
        rw [lastIsMarker_cons]
        rcases hi.closed with hcl | hcl
        · rw [hl] at hcl
          cases hcl
        · rw [hl] at hcl
          exact hcl
    · exact LogSnap.marker h.transaction_log h.client.data snaps hs
  | commit =>
    by_cases hl : h.transaction_log = []
    · rw [show step h Op.commit = h.commit from rfl,
        TransactionsHandler.commit_nil h hl]
      exact hi
    · rw [show step h Op.commit = h.commit from rfl,
        TransactionsHandler.commit_ne_nil h hl]
      exact ⟨hi.cinv, Or.inl rfl, [], LogSnap.nil _⟩
  | rollback =>
    by_cases hl : h.transaction_log = []
    · rw [show step h Op.rollback = h.rollback from rfl,
        TransactionsHandler.rollback_nil h hl]
      exact hi
    · have hlast : lastIsMarker h.transaction_log = true := by
        rcases hi.closed with hcl | hcl
        · exact absurd hcl hl
        · exact hcl
      obtain ⟨E, L0, hsplit, hent⟩ := log_decomp h.transaction_log hl hlast
      obtain ⟨snaps, hs⟩ := hi.snap
      obtain ⟨s, snaps', hcons⟩ := LogSnap_snaps_cons E L0 h.client.data snaps hent
        (by rw [← hsplit]; exact hs)
      rw [hcons] at hs
      obtain ⟨hr, hc', hdd, hsnap⟩ := rollback_ok h E L0 s snaps' hsplit hent hs hi.cinv
      rw [show step h Op.rollback = h.rollback from rfl, hr]
      refine ⟨?_, ?_, snaps', ?_⟩
      · rw [hr] at hc'
        exact hc'
      · show L0 = [] ∨ lastIsMarker L0 = true
        cases hL0 : L0 with
        | nil => exact Or.inl rfl
        | cons b rest =>
          right
          rw [hsplit, hL0] at hlast
          rw [lastIsMarker_append E (LogItem.marker :: b :: rest) (by simp),
            lastIsMarker_cons] at hlast
          exact hlast
      · rw [hr] at hsnap
        exact hsnap

theorem Inv_runOps (h : TransactionsHandler) (hi : HInv h) :
    ∀ ops : List Op, HInv (runOps h ops) := by
  intro ops
  induction ops generalizing h with
  | nil => exact hi
  | cons op rest ih => exact ih (step h op).1 (Inv_step h op hi)

theorem reachable_inv (h : TransactionsHandler) (hre : Reachable h) : HInv h := by
  obtain ⟨ops, hops⟩ := hre
  rw [← hops]
  exact Inv_runOps initHandler Inv_init ops

theorem EntriesOnly_append (A B : List LogItem) (ha : EntriesOnly A)
    (hb : EntriesOnly B) : EntriesOnly (A ++ B) := by
  intro x hx
  rcases List.mem_append.mp hx with hm | hm
  · exact ha x hm
  · exact hb x hm

/-- A mutation only pushes undo entries onto the log. -/
theorem step_mutation_log (g : TransactionsHandler) (op : Op)
    (hmut : op.isMutation = true) :
    ∃ E, EntriesOnly E ∧ (step g op).1.transaction_log = E ++ g.transaction_log := by
  cases op with
  | get key => simp [Op.isMutation] at hmut
  | count v => simp [Op.isMutation] at hmut
  | begin => simp [Op.isMutation] at hmut
  | commit => simp [Op.isMutation] at hmut
  | rollback => simp [Op.isMutation] at hmut
  | set key value =>
    by_cases hlog : g.transaction_log = []
    · rw [show step g (Op.set key value) = (g.set key value, none) from rfl,
        TransactionsHandler.set_inactive g key value hlog]
      exact ⟨[], EntriesOnly_nil, by simp⟩
    · rw [show step g (Op.set key value) = (g.set key value, none) from rfl,
        TransactionsHandler.set_active g key value hlog]
      refine ⟨[LogItem.entry ⟨key, dictGet g.client.data key, some value⟩], ?_, by simp⟩
      intro x hx
      cases hx with
      | head => exact ⟨_, rfl⟩
      | tail _ hmem => cases hmem
  | delete key =>
    cases hget : dictGet g.client.data key with
    | none =>
      rw [show step g (Op.delete key) = g.delete key from rfl,
        TransactionsHandler.delete_absent_eq g key hget]
      exact ⟨[], EntriesOnly_nil, by simp⟩
    | some x =>
      by_cases hlog : g.transaction_log = []
      · rw [show step g (Op.delete key) = g.delete key from rfl,
          TransactionsHandler.delete_inactive g key x hget hlog]
        exact ⟨[], EntriesOnly_nil, by simp⟩
      · rw [show step g (Op.delete key) = g.delete key from rfl,
          TransactionsHandler.delete_active g key x hget hlog]
        refine ⟨[LogItem.entry ⟨key, some x, none⟩], ?_, by simp⟩
        intro item hitem
        cases hitem with
        | head => exact ⟨_, rfl⟩
        | tail _ hmem => cases hmem

theorem runOps_cons (g : TransactionsHandler) (op : Op) (ops : List Op) :
    runOps g (op :: ops) = runOps (step g op).1 ops := rfl

/-- A run of mutations only pushes undo entries onto the log. -/
theorem runOps_mutations_log : ∀ (ms : List Op) (g : TransactionsHandler),
    (∀ op ∈ ms, op.isMutation = true) →
    ∃ E, EntriesOnly E ∧ (runOps g ms).transaction_log = E ++ g.transaction_log := by
  intro ms
  induction ms with
  | nil => exact fun g _ => ⟨[], EntriesOnly_nil, rfl⟩
  | cons op rest ih =>
    intro g hmut
    obtain ⟨E1, hent1, hlog1⟩ := step_mutation_log g op (hmut op (List.mem_cons_self op rest))
    obtain ⟨E2, hent2, hlog2⟩ :=
      ih (step g op).1 (fun o ho => hmut o (List.mem_cons_of_mem _ ho))
    refine ⟨E2 ++ E1, EntriesOnly_append E2 E1 hent2 hent1, ?_⟩
    rw [runOps_cons, hlog2, hlog1, List.append_assoc]

/-- A run of mutations preserves the store invariant and the snapshot
relation with the same snapshot list, and only pushes undo entries. -/
theorem runOps_mutations : ∀ (ms : List Op) (g : TransactionsHandler)
    (snaps : List (String → Option Int)),
    (∀ op ∈ ms, op.isMutation = true) → CInv g.client →
    LogSnap g.transaction_log g.client.data snaps →
    CInv (runOps g ms).client ∧
    LogSnap (runOps g ms).transaction_log (runOps g ms).client.data snaps ∧
    ∃ E, EntriesOnly E ∧ (runOps g ms).transaction_log = E ++ g.transaction_log := by
  intro ms
  induction ms with
  | nil => exact fun g snaps _ hc hs => ⟨hc, hs, [], EntriesOnly_nil, rfl⟩
  | cons op rest ih =>
    intro g snaps hmut hc hs
    obtain ⟨hc1, hs1, E1, hent1, hlog1, _⟩ :=
      step_mutation g op snaps (hmut op (List.mem_cons_self op rest)) hc hs
    obtain ⟨hc2, hs2, E2, hent2, hlog2⟩ :=
      ih (step g op).1 snaps (fun o ho => hmut o (List.mem_cons_of_mem _ ho)) hc1 hs1
    refine ⟨hc2, hs2, E2 ++ E1, EntriesOnly_append E2 E1 hent2 hent1, ?_⟩
    rw [runOps_cons, hlog2, hlog1, List.append_assoc]

theorem begin_log (h : TransactionsHandler) :
    h.begin.transaction_log = LogItem.marker :: h.transaction_log := rfl

theorem begin_client (h : TransactionsHandler) : h.begin.client = h.client := rfl

/-- Opening a frame with `begin`, running any mutations inside it and
rolling back succeeds and restores the log, the key-to-value mapping and
(through `CInv`) the count index of the surrounding state; the snapshot
relation for the surrounding log survives. -/
theorem begin_frame_rollback (h : TransactionsHandler) (ms : List Op)
    (snaps : List (String → Option Int))
    (hms : ∀ op ∈ ms, op.isMutation = true) (hc : CInv h.client)
    (hs : LogSnap h.transaction_log h.client.data snaps) :
    ((runOps h.begin ms).rollback).2 = none ∧
    ((runOps h.begin ms).rollback).1.transaction_log = h.transaction_log ∧
    CInv ((runOps h.begin ms).rollback).1.client ∧
    (∀ k, dictGet ((runOps h.begin ms).rollback).1.client.data k
        = dictGet h.client.data k) ∧
    LogSnap h.transaction_log ((runOps h.begin ms).rollback).1.client.data snaps := by
  have hsb : LogSnap h.begin.transaction_log h.begin.client.data
      (lookupFun h.client.data :: snaps) := by
    rw [begin_log, begin_client]
    exact LogSnap.marker h.transaction_log h.client.data snaps hs
  have hcb : CInv h.begin.client := hc
  obtain ⟨hc1, hs1, E, hentE, hlogE⟩ :=
    runOps_mutations ms h.begin (lookupFun h.client.data :: snaps) hms hcb hsb
  rw [begin_log] at hlogE
  obtain ⟨hr, hc', hdd, hsnap⟩ := rollback_ok (runOps h.begin ms) E h.transaction_log
    (lookupFun h.client.data) snaps hlogE hentE hs1 hc1
  refine ⟨?_, ?_, hc', hdd, ?_⟩
  · rw [hr]
  · rw [hr]
  · exact LogSnap_congr h.transaction_log h.client.data snaps hs _
      (fun k => (hdd k).symm)

theorem rollbackIter_zero (h : TransactionsHandler) : rollbackIter h 0 = (h, none) := rfl

theorem rollbackIter_add_one : ∀ (n : Nat) (h h' : TransactionsHandler),
    rollbackIter h n = (h', none) → rollbackIter h (n + 1) = h'.rollback := by
  intro n
  induction n with
  | zero =>
    intro h h' h0
    have hh : h' = h := by
      have := congrArg Prod.fst h0
      exact this.symm
    subst hh
    show (match h'.rollback with
      | (h2, none) => rollbackIter h2 0
      | (h2, some err) => (h2, some err)) = h'.rollback
    cases hrb : h'.rollback with
    | mk h2 e =>
      cases e with
      | none => rfl
      | some err => rfl
  | succ n ih =>
    intro h h' hn
    cases hrb : h.rollback with
    | mk h1 e =>
      cases e with
      | none =>
        have hn' : rollbackIter h1 n = (h', none) := by
          have hstep : rollbackIter h (n + 1) = rollbackIter h1 n := by
            show (match h.rollback with
              | (h2, none) => rollbackIter h2 n
              | (h2, some err) => (h2, some err)) = rollbackIter h1 n
            rw [hrb]
          rw [← hstep]
          exact hn
        have hgoal : rollbackIter h (n + 1 + 1) = rollbackIter h1 (n + 1) := by
          show (match h.rollback with
            | (h2, none) => rollbackIter h2 (n + 1)
            | (h2, some err) => (h2, some err)) = rollbackIter h1 (n + 1)
          rw [hrb]
        rw [hgoal]
        exact ih h1 h' hn'
      | some err =>
        have : rollbackIter h (n + 1) = (h1, some err) := by
          show (match h.rollback with
            | (h2, none) => rollbackIter h2 n
            | (h2, some err) => (h2, some err)) = (h1, some err)
          rw [hrb]
        rw [hn] at this
        have := congrArg Prod.snd this
        cases this

theorem runPhases_cons (h : TransactionsHandler) (ms : List Op) (rest : List (List Op)) :
    runPhases h (ms :: rest) = runPhases (runOps h.begin ms) rest := rfl

/-- Core of the nesting-depth property: starting from any state whose
store satisfies the invariant and whose log is governed by `snaps`, after
running `mss.length` nested phases the first `k ≤ mss.length` rollbacks
all succeed and return the coordinator to the state reached after only
the first `mss.length - k` phases (same log, same key-to-value mapping,
invariant preserved). -/
theorem phases_rollbackIter : ∀ (mss : List (List Op)) (h : TransactionsHandler)
    (snaps : List (String → Option Int)),
    (∀ ms ∈ mss, ∀ op ∈ ms, op.isMutation = true) →
    CInv h.client → LogSnap h.transaction_log h.client.data snaps →
    ∀ k, k ≤ mss.length →
      (rollbackIter (runPhases h mss) k).2 = none ∧
      (rollbackIter (runPhases h mss) k).1.transaction_log
        = (runPhases h (mss.take (mss.length - k))).transaction_log ∧
      (∀ key, dictGet (rollbackIter (runPhases h mss) k).1.client.data key
        = dictGet (runPhases h (mss.take (mss.length - k))).client.data key) ∧
      CInv (rollbackIter (runPhases h mss) k).1.client := by
  intro mss
  induction mss with
  | nil =>
    intro h snaps _ hc hs k hk
    have hk0 : k = 0 := Nat.le_zero.mp hk
    subst hk0
    exact ⟨rfl, rfl, fun key => rfl, hc⟩
  | cons ms rest ih =>
    intro h snaps hmut hc hs k hk
    have hsb : LogSnap (runOps h.begin ms).transaction_log
        (runOps h.begin ms).client.data (lookupFun h.client.data :: snaps) ∧
        CInv (runOps h.begin ms).client ∧
        ∃ E, EntriesOnly E ∧
          (runOps h.begin ms).transaction_log
            = E ++ LogItem.marker :: h.transaction_log := by
      have hsb0 : LogSnap h.begin.transaction_log h.begin.client.data
          (lookupFun h.client.data :: snaps) := by
        rw [begin_log, begin_client]
        exact LogSnap.marker h.transaction_log h.client.data snaps hs
      obtain ⟨hc1, hs1, E, hentE, hlogE⟩ :=
        runOps_mutations ms h.begin (lookupFun h.client.data :: snaps)
          (hmut ms (List.mem_cons_self ms rest)) hc hsb0
      rw [begin_log] at hlogE
      exact ⟨hs1, hc1, E, hentE, hlogE⟩
    obtain ⟨hs1, hc1, E, hentE, hlogE⟩ := hsb
    have hmut' : ∀ m ∈ rest, ∀ op ∈ m, op.isMutation = true :=
      fun m hm => hmut m (List.mem_cons_of_mem _ hm)
    by_cases hkr : k ≤ rest.length
    · have ihk := ih (runOps h.begin ms) (lookupFun h.client.data :: snaps)
        hmut' hc1 hs1 k hkr
      have htake : (ms :: rest).take ((ms :: rest).length - k)
          = ms :: rest.take (rest.length - k) := by
        have harith : (ms :: rest).length - k = (rest.length - k) + 1 := by
          simp only [List.length_cons]
          omega
        rw [harith]
        rfl
      rw [runPhases_cons, htake, runPhases_cons]
      exact ihk
    · have hkeq : k = rest.length + 1 := by
        simp only [List.length_cons] at hk
        omega
      subst hkeq
      have ihz := ih (runOps h.begin ms) (lookupFun h.client.data :: snaps)
        hmut' hc1 hs1 rest.length (Nat.le_refl _)
      obtain ⟨hz2, hzlog, hzdd, hzc⟩ := ihz
      have htake0 : rest.take (rest.length - rest.length) = [] := by
        simp
      rw [htake0] at hzlog hzdd
      have hzpair : rollbackIter (runPhases (runOps h.begin ms) rest) rest.length
          = ((rollbackIter (runPhases (runOps h.begin ms) rest) rest.length).1,
            none) := by
        rw [← hz2]
      have hadd := rollbackIter_add_one rest.length
        (runPhases (runOps h.begin ms) rest)
        (rollbackIter (runPhases (runOps h.begin ms) rest) rest.length).1 hzpair
      have hzlog' : (rollbackIter (runPhases (runOps h.begin ms) rest)
          rest.length).1.transaction_log
          = E ++ LogItem.marker :: h.transaction_log := by
        rw [hzlog]
        exact hlogE
      have hzsnap : LogSnap
          (rollbackIter (runPhases (runOps h.begin ms) rest) rest.length).1.transaction_log
          (rollbackIter (runPhases (runOps h.begin ms) rest) rest.length).1.client.data
          (lookupFun h.client.data :: snaps) := by
        rw [hzlog]
        exact LogSnap_congr _ _ _ hs1 _ (fun key => (hzdd key).symm)
      obtain ⟨hr, hc', hdd', hsnap'⟩ := rollback_ok
        (rollbackIter (runPhases (runOps h.begin ms) rest) rest.length).1
        E h.transaction_log (lookupFun h.client.data) snaps hzlog' hentE hzsnap hzc
      have htake' : (ms :: rest).take ((ms :: rest).length - (rest.length + 1)) = [] := by
        simp
      rw [runPhases_cons, htake']
      rw [show (rest.length + 1) = rest.length + 1 from rfl, hadd, hr]
      refine ⟨rfl, rfl, ?_, hc'⟩
      intro key
      rw [hr] at hdd'
      exact hdd' key

/-- On any invariant-satisfying state with an open transaction, rollback
and its replay loop succeed (no store-level error, no index error). -/
theorem rollback_succeeds_of_HInv (h : TransactionsHandler) (hi : HInv h)
    (hl : h.transaction_log ≠ []) :
    (h.rollback).2 = none ∧
    (applyRollback h.transaction_log h.client).2.2 = none ∧
    ∃ L0, (applyRollback h.transaction_log h.client).1 = LogItem.marker :: L0 := by
  have hlast : lastIsMarker h.transaction_log = true := by
    rcases hi.closed with hcl | hcl
    · exact absurd hcl hl
    · exact hcl
  obtain ⟨E, L0, hsplit, hent⟩ := log_decomp h.transaction_log hl hlast
  obtain ⟨snaps, hs⟩ := hi.snap
  obtain ⟨s, snaps', hcons⟩ := LogSnap_snaps_cons E L0 h.client.data snaps hent
    (by rw [← hsplit]; exact hs)
  rw [hcons] at hs
  obtain ⟨hr, _, _, _⟩ := rollback_ok h E L0 s snaps' hsplit hent hs hi.cinv
  refine ⟨?_, ?_, ?_⟩
  · rw [hr]
  · rw [hsplit] at hs
    obtain ⟨c', happ, _, _, _⟩ :=
      applyRollback_ok E L0 h.client s snaps' hent hs hi.cinv
    rw [hsplit, happ]
  · rw [hsplit] at hs
    obtain ⟨c', happ, _, _, _⟩ :=
      applyRollback_ok E L0 h.client s snaps' hent hs hi.cinv
    rw [hsplit, happ]
    exact ⟨L0, rfl⟩

theorem marker_mem_of_lastIsMarker : ∀ (L : List LogItem),
    lastIsMarker L = true → LogItem.marker ∈ L := by
  intro L
  induction L with
  | nil => intro hcon; cases hcon
  | cons a rest ih =>
    intro hlast
    cases rest with
    | nil =>
      cases a with
      | marker => exact List.mem_cons_self _ _
      | entry e => cases hlast
    | cons x rest' =>
      rw [lastIsMarker_cons] at hlast
      exact List.mem_cons_of_mem a (ih hlast)

theorem HInv_runPhases (h : TransactionsHandler) (hi : HInv h) :
    ∀ mss : List (List Op), HInv (runPhases h mss) := by
  intro mss
  induction mss generalizing h with
  | nil => exact hi
  | cons ms rest ih =>
    rw [runPhases_cons]
    exact ih (runOps h.begin ms) (Inv_runOps h.begin (Inv_step h Op.begin hi) ms)

theorem runPhases_log_ne_nil : ∀ (mss : List (List Op)) (g : TransactionsHandler),
    mss ≠ [] → (∀ ms ∈ mss, ∀ op ∈ ms, op.isMutation = true) →
    (runPhases g mss).transaction_log ≠ [] := by
  intro mss
  induction mss with
  | nil => exact fun g hcon _ => absurd rfl hcon
  | cons ms rest ih =>
    intro g _ hmut
    rw [runPhases_cons]
    cases hrest : rest with
    | nil =>
      show (runOps g.begin ms).transaction_log ≠ []
      obtain ⟨E, _, hlog⟩ :=
        runOps_mutations_log ms g.begin (hmut ms (List.mem_cons_self ms rest))
      rw [hlog, begin_log]
      simp
    | cons m rest' =>
      rw [← hrest]
      refine ih (runOps g.begin ms) (by rw [hrest]; simp) ?_
      exact fun m' hm' => hmut m' (List.mem_cons_of_mem _ hm')

/-- C1: Rollback is a true inverse.  For every reachable coordinator
state and every sequence of set/delete mutations performed between one
`begin` and the matching `rollback`, the rollback succeeds and the
key-to-value mapping, the count index (absent entries read as 0) and the
transaction log after `rollback` equal those immediately before the
`begin`. -/
theorem c1_rollback_true_inverse (h : TransactionsHandler) (hre : Reachable h)
    (ms : List Op) (hms : ∀ op ∈ ms, op.isMutation = true) :
    ((runOps h.begin ms).rollback).2 = none ∧
    ((runOps h.begin ms).rollback).1.transaction_log = h.transaction_log ∧
    (∀ k, dictGet ((runOps h.begin ms).rollback).1.client.data k
        = dictGet h.client.data k) ∧
    (∀ v, ((runOps h.begin ms).rollback).1.client.counts v
        = h.client.counts v) := by
  have hi := reachable_inv h hre
  obtain ⟨snaps, hs⟩ := hi.snap
  obtain ⟨h2, hlog, hc', hdd, _⟩ := begin_frame_rollback h ms snaps hms hi.cinv hs
  refine ⟨h2, hlog, hdd, ?_⟩
  intro v
  rw [hc'.counts_ok v, hi.cinv.counts_ok v]
  exact_mod_cast congrArg Nat.cast
    (countKeys_congr _ _ hc'.keys_ok hi.cinv.keys_ok hdd v)

theorem c1_rollback_true_inverse_witness :
    ((runOps ((runOps initHandler [Op.set "x" 5]).begin)
        [Op.set "x" 7, Op.delete "x", Op.set "y" 1]).rollback).2 = none ∧
    ((runOps ((runOps initHandler [Op.set "x" 5]).begin)
        [Op.set "x" 7, Op.delete "x", Op.set "y" 1]).rollback).1.transaction_log
      = (runOps initHandler [Op.set "x" 5]).transaction_log :=
  ⟨(c1_rollback_true_inverse (runOps initHandler [Op.set "x" 5])
      ⟨[Op.set "x" 5], rfl⟩ [Op.set "x" 7, Op.delete "x", Op.set "y" 1]
      (by decide)).1,
   (c1_rollback_true_inverse (runOps initHandler [Op.set "x" 5])
      ⟨[Op.set "x" 5], rfl⟩ [Op.set "x" 7, Op.delete "x", Op.set "y" 1]
      (by decide)).2.1⟩

/-- C2: Count consistency.  After any sequence of coordinator operations
from the fresh state, `count v` equals the number of keys currently
mapped to `v`, for every integer `v`. -/
theorem c2_count_consistency (ops : List Op) (v : Int) :
    (runOps initHandler ops).count v
      = (countKeys (runOps initHandler ops).client.data v : Int) :=
  (Inv_runOps initHandler Inv_init ops).cinv.counts_ok v

/-- C3: `commit` fails with `noActiveTransaction` exactly on an empty
log; otherwise it discards the entire log without touching the store.
In either case the resulting state has an empty log, an unchanged store
and count index, and a subsequent `rollback` fails. -/
theorem c3_commit_spec (h : TransactionsHandler) :
    (h.transaction_log = [] → h.commit = (h, some DBError.noActiveTransaction)) ∧
    (h.transaction_log ≠ [] → h.commit = ({ h with transaction_log := [] }, none)) ∧
    (h.commit).1.transaction_log = [] ∧
    (h.commit).1.client = h.client ∧
    (h.commit).1.rollback = ((h.commit).1, some DBError.noActiveTransaction) := by
  by_cases hl : h.transaction_log = []
  · rw [TransactionsHandler.commit_nil h hl]
    exact ⟨fun _ => rfl, fun hcon => absurd hl hcon, hl, rfl,
      TransactionsHandler.rollback_nil h hl⟩
  · rw [TransactionsHandler.commit_ne_nil h hl]
    exact ⟨fun hcon => absurd hcon hl, fun _ => rfl, rfl, rfl,
      TransactionsHandler.rollback_nil _ rfl⟩

theorem c3_commit_spec_witness :
    ((runOps initHandler [Op.begin, Op.set "a" 4]).commit).1.transaction_log = [] ∧
    ((runOps initHandler [Op.begin, Op.set "a" 4]).commit).1.rollback
      = (((runOps initHandler [Op.begin, Op.set "a" 4]).commit).1,
        some DBError.noActiveTransaction) :=
  ⟨(c3_commit_spec (runOps initHandler [Op.begin, Op.set "a" 4])).2.2.1,
   (c3_commit_spec (runOps initHandler [Op.begin, Op.set "a" 4])).2.2.2.2⟩

/-- C5: `delete` fails with `notFound` exactly when the key is unset,
regardless of transaction state; on a set key it succeeds, removes the
key, and records an undo entry exactly when a transaction is active. -/
theorem c5_delete_spec (h : TransactionsHandler) (key : String) :
    ((h.delete key).2 = some (DBError.notFound key)
      ↔ dictGet h.client.data key = none) ∧
    (dictGet h.client.data key = none →
      h.delete key = (h, some (DBError.notFound key))) ∧
    (∀ x, dictGet h.client.data key = some x →
      (h.delete key).2 = none ∧
      dictGet (h.delete key).1.client.data key = none ∧
      (h.delete key).1.transaction_log
        = (if h.transaction_log = [] then h.transaction_log
           else LogItem.entry ⟨key, some x, none⟩ :: h.transaction_log)) := by
  cases hget : dictGet h.client.data key with
  | none =>
    rw [TransactionsHandler.delete_absent_eq h key hget]
    refine ⟨⟨fun _ => rfl, fun _ => rfl⟩, fun _ => rfl, ?_⟩
    intro x hx
    cases hx
  | some x =>
    have hsucc : (h.delete key).2 = none ∧
        dictGet (h.delete key).1.client.data key = none ∧
        (h.delete key).1.transaction_log
          = (if h.transaction_log = [] then h.transaction_log
             else LogItem.entry ⟨key, some x, none⟩ :: h.transaction_log) := by
      by_cases hl : h.transaction_log = []
      · rw [TransactionsHandler.delete_inactive h key x hget hl]
        refine ⟨rfl, by simp, ?_⟩
        rw [if_pos hl]
      · rw [TransactionsHandler.delete_active h key x hget hl]
        refine ⟨rfl, by simp, ?_⟩
        rw [if_neg hl]
    refine ⟨⟨?_, ?_⟩, ?_, ?_⟩
    · intro hsome
      rw [hsucc.1] at hsome
      cases hsome
    · intro hnone
      cases hnone
    · intro hnone
      cases hnone
    · intro y hy
      injection hy with hy
      subst hy
      exact hsucc

theorem c5_delete_spec_witness :
    (((runOps initHandler [Op.set "a" 1, Op.begin]).delete "a").2 = none ∧
      dictGet ((runOps initHandler [Op.set "a" 1, Op.begin]).delete
        "a").1.client.data "a" = none ∧
      ((runOps initHandler [Op.set "a" 1, Op.begin]).delete "a").1.transaction_log
        = (if (runOps initHandler [Op.set "a" 1, Op.begin]).transaction_log = []
           then (runOps initHandler [Op.set "a" 1, Op.begin]).transaction_log
           else LogItem.entry ⟨"a", some 1, none⟩
             :: (runOps initHandler [Op.set "a" 1, Op.begin]).transaction_log)) ∧
    ((initHandler.delete "b").2 = some (DBError.notFound "b")
      ↔ dictGet initHandler.client.data "b" = none) :=
  ⟨(c5_delete_spec (runOps initHandler [Op.set "a" 1, Op.begin]) "a").2.2 1 (by decide),
   (c5_delete_spec initHandler "b").1⟩

/-- C8: `count` returns the bucket of the count index (0 for a value
never recorded, as on the fresh store), never fails, and has no side
effects on the store, the count index or the transaction log. -/
theorem c8_count_pure (h : TransactionsHandler) (value : Int) :
    h.count value = h.client.counts value ∧
    step h (Op.count value) = (h, none) ∧
    initHandler.count value = 0 :=
  ⟨rfl, rfl, rfl⟩

/-- C10: On every reachable state, `rollback` raises only when no
transaction is active; when a transaction is active the whole replay
(including every store-level `delete` it performs) succeeds. -/
theorem c10_rollback_never_fails (h : TransactionsHandler) (hre : Reachable h) :
    (h.transaction_log = [] → h.rollback = (h, some DBError.noActiveTransaction)) ∧
    (h.transaction_log ≠ [] → (h.rollback).2 = none) := by
  refine ⟨fun hl => TransactionsHandler.rollback_nil h hl, fun hl => ?_⟩
  exact (rollback_succeeds_of_HInv h (reachable_inv h hre) hl).1

theorem c10_rollback_never_fails_witness :
    ((runOps initHandler
      [Op.begin, Op.set "a" 1, Op.delete "a", Op.set "b" 2]).rollback).2 = none :=
  (c10_rollback_never_fails
    (runOps initHandler [Op.begin, Op.set "a" 1, Op.delete "a", Op.set "b" 2])
    ⟨[Op.begin, Op.set "a" 1, Op.delete "a", Op.set "b" 2], rfl⟩).2 (by decide)

/-- C4: Nesting depth tracks begins.  From a reachable state with no
open transaction, run `N` phases, each a `begin` followed by arbitrary
set/delete mutations.  Then for every `k ≤ N` the first `k` rollbacks all
succeed and return the coordinator exactly to the state after the first
`N - k` phases (log, key-to-value mapping and count index), a transaction
is still active precisely while `k < N`, and after the `N`-th rollback a
further `rollback` fails. -/
theorem c4_nesting_depth (h : TransactionsHandler) (hre : Reachable h)
    (hlog : h.transaction_log = []) (mss : List (List Op))
    (hmut : ∀ ms ∈ mss, ∀ op ∈ ms, op.isMutation = true)
    (k : Nat) (hk : k ≤ mss.length) :
    (rollbackIter (runPhases h mss) k).2 = none ∧
    (rollbackIter (runPhases h mss) k).1.transaction_log
      = (runPhases h (mss.take (mss.length - k))).transaction_log ∧
    (∀ key, dictGet (rollbackIter (runPhases h mss) k).1.client.data key
      = dictGet (runPhases h (mss.take (mss.length - k))).client.data key) ∧
    (∀ v, (rollbackIter (runPhases h mss) k).1.client.counts v
      = (runPhases h (mss.take (mss.length - k))).client.counts v) ∧
    ((rollbackIter (runPhases h mss) k).1.transaction_active
      = decide (k < mss.length)) ∧
    (k = mss.length →
      (rollbackIter (runPhases h mss) k).1.rollback
        = ((rollbackIter (runPhases h mss) k).1,
          some DBError.noActiveTransaction)) := by
  have hi := reachable_inv h hre
  obtain ⟨snaps, hs⟩ := hi.snap
  obtain ⟨hnone, hlogeq, hdata, hcinv⟩ :=
    phases_rollbackIter mss h snaps hmut hi.cinv hs k hk
  have hrefInv : HInv (runPhases h (mss.take (mss.length - k))) :=
    HInv_runPhases h hi (mss.take (mss.length - k))
  have hcounts : ∀ v, (rollbackIter (runPhases h mss) k).1.client.counts v
      = (runPhases h (mss.take (mss.length - k))).client.counts v := by
    intro v
    rw [hcinv.counts_ok v, hrefInv.cinv.counts_ok v]
    exact_mod_cast congrArg Nat.cast
      (countKeys_congr _ _ hcinv.keys_ok hrefInv.cinv.keys_ok hdata v)
  have hactive : (rollbackIter (runPhases h mss) k).1.transaction_active
      = decide (k < mss.length) := by
    by_cases hkN : k < mss.length
    · have htne : mss.take (mss.length - k) ≠ [] := by
        cases mss with
        | nil => simp at hkN
        | cons a l =>
          have hn : ∃ m, (a :: l).length - k = m + 1 := by
            refine ⟨(a :: l).length - k - 1, ?_⟩
            simp only [List.length_cons] at hkN ⊢
            omega
          obtain ⟨m, hm⟩ := hn
          rw [hm]
          simp
      have hne := runPhases_log_ne_nil (mss.take (mss.length - k)) h htne
        (fun m hm => hmut m (List.take_subset _ _ hm))
      unfold TransactionsHandler.transaction_active
      rw [hlogeq, decide_eq_true hkN]
      cases hl2 : (runPhases h (mss.take (mss.length - k))).transaction_log with
      | nil => exact absurd hl2 hne
      | cons a l => simp
    · have hkeq : k = mss.length := by omega
      have htake : mss.take (mss.length - k) = [] := by
        rw [hkeq]
        simp
      rw [htake] at hlogeq
      unfold TransactionsHandler.transaction_active
      rw [hlogeq]
      show (!(runPhases h []).transaction_log.isEmpty) = decide (k < mss.length)
      show (!h.transaction_log.isEmpty) = decide (k < mss.length)
      rw [hlog, decide_eq_false (by omega)]
      rfl
  refine ⟨hnone, hlogeq, hdata, hcounts, hactive, ?_⟩
  intro hkeq
  have htake : mss.take (mss.length - k) = [] := by
    rw [hkeq]
    simp
  rw [htake] at hlogeq
  have hlz : (rollbackIter (runPhases h mss) k).1.transaction_log = [] := by
    rw [hlogeq]
    exact hlog
  exact TransactionsHandler.rollback_nil _ hlz

theorem c4_nesting_depth_witness :
    (rollbackIter (runPhases initHandler
      [[Op.set "a" 1], [Op.set "a" 2, Op.delete "a"]]) 2).2 = none ∧
    (rollbackIter (runPhases initHandler
      [[Op.set "a" 1], [Op.set "a" 2, Op.delete "a"]]) 2).1.rollback
      = ((rollbackIter (runPhases initHandler
          [[Op.set "a" 1], [Op.set "a" 2, Op.delete "a"]]) 2).1,
        some DBError.noActiveTransaction) :=
  ⟨(c4_nesting_depth initHandler ⟨[], rfl⟩ rfl
      [[Op.set "a" 1], [Op.set "a" 2, Op.delete "a"]] (by decide) 2 (by decide)).1,
   (c4_nesting_depth initHandler ⟨[], rfl⟩ rfl
      [[Op.set "a" 1], [Op.set "a" 2, Op.delete "a"]] (by decide) 2
      (by decide)).2.2.2.2.2 rfl⟩

/-- C6: Failure atomicity.  On every reachable state, a failing call
leaves the coordinator exactly as it was, and the only failures are
`notFound` from `delete` and `noActiveTransaction` from `commit` or
`rollback` — both detected before any state change. -/
theorem c6_failure_atomicity (h : TransactionsHandler) (hre : Reachable h)
    (op : Op) (e : DBError) (hfail : (step h op).2 = some e) :
    (step h op).1 = h ∧
    ((∃ key, op = Op.delete key ∧ e = DBError.notFound key) ∨
     ((op = Op.commit ∨ op = Op.rollback) ∧ e = DBError.noActiveTransaction)) := by
  cases op with
  | set key value => cases hfail
  | get key => cases hfail
  | count v => cases hfail
  | begin => cases hfail
  | delete key =>
    cases hget : dictGet h.client.data key with
    | none =>
      rw [show step h (Op.delete key) = h.delete key from rfl,
        TransactionsHandler.delete_absent_eq h key hget] at hfail ⊢
      injection hfail with hfe
      exact ⟨rfl, Or.inl ⟨key, rfl, hfe.symm⟩⟩
    | some x =>
      by_cases hl : h.transaction_log = []
      · rw [show step h (Op.delete key) = h.delete key from rfl,
          TransactionsHandler.delete_inactive h key x hget hl] at hfail
        cases hfail
      · rw [show step h (Op.delete key) = h.delete key from rfl,
          TransactionsHandler.delete_active h key x hget hl] at hfail
        cases hfail
  | commit =>
    by_cases hl : h.transaction_log = []
    · rw [show step h Op.commit = h.commit from rfl,
        TransactionsHandler.commit_nil h hl] at hfail ⊢
      injection hfail with hfe
      exact ⟨rfl, Or.inr ⟨Or.inl rfl, hfe.symm⟩⟩
    · rw [show step h Op.commit = h.commit from rfl,
        TransactionsHandler.commit_ne_nil h hl] at hfail
      cases hfail
  | rollback =>
    by_cases hl : h.transaction_log = []
    · rw [show step h Op.rollback = h.rollback from rfl,
        TransactionsHandler.rollback_nil h hl] at hfail ⊢
      injection hfail with hfe
      exact ⟨rfl, Or.inr ⟨Or.inr rfl, hfe.symm⟩⟩
    · have hok := (rollback_succeeds_of_HInv h (reachable_inv h hre) hl).1
      rw [show step h Op.rollback = h.rollback from rfl, hok] at hfail
      cases hfail

theorem c6_failure_atomicity_witness :
    (step initHandler Op.rollback).1 = initHandler ∧
    ((∃ key, Op.rollback = Op.delete key
        ∧ DBError.noActiveTransaction = DBError.notFound key) ∨
     ((Op.rollback = Op.commit ∨ Op.rollback = Op.rollback)
        ∧ DBError.noActiveTransaction = DBError.noActiveTransaction)) :=
  c6_failure_atomicity initHandler ⟨[], rfl⟩ Op.rollback
    DBError.noActiveTransaction rfl

/-- C7: The count index never goes negative on any reachable state, and
a `set` that overwrites an old value decrements the old bucket and
increments the new bucket in the same operation, leaving all other
buckets untouched. -/
theorem c7_counts_nonneg (h : InMemoryDBClient) :
    (∀ (ops : List Op) (v : Int), 0 ≤ (runOps initHandler ops).client.counts v) ∧
    (∀ (key : String) (value old : Int),
      dictGet h.data key = some old → old ≠ value →
      (h.set key value).counts old = h.counts old - 1 ∧
      (h.set key value).counts value = h.counts value + 1 ∧
      (∀ u, u ≠ old → u ≠ value → (h.set key value).counts u = h.counts u)) := by
  constructor
  · intro ops v
    rw [(Inv_runOps initHandler Inv_init ops).cinv.counts_ok v]
    exact Int.natCast_nonneg _
  · intro key value old hget hne
    refine ⟨?_, ?_, ?_⟩
    · simp only [InMemoryDBClient.set, hget, updCount]
      split_ifs <;> omega
    · simp only [InMemoryDBClient.set, hget, updCount]
      split_ifs <;> omega
    · intro u hu1 hu2
      simp only [InMemoryDBClient.set, hget, updCount]
      split_ifs <;> omega

theorem c7_counts_nonneg_witness :
    (0 ≤ (runOps initHandler [Op.set "a" 3, Op.delete "a"]).client.counts 3) ∧
    (((runOps initHandler [Op.set "a" 3]).client.set "a" 5).counts 3
        = (runOps initHandler [Op.set "a" 3]).client.counts 3 - 1 ∧
      ((runOps initHandler [Op.set "a" 3]).client.set "a" 5).counts 5
        = (runOps initHandler [Op.set "a" 3]).client.counts 5 + 1) := by
  refine ⟨(c7_counts_nonneg InMemoryDBClient.init).1 [Op.set "a" 3, Op.delete "a"] 3, ?_, ?_⟩
  · exact ((c7_counts_nonneg (runOps initHandler [Op.set "a" 3]).client).2
      "a" 5 3 (by decide) (by decide)).1
  · exact ((c7_counts_nonneg (runOps initHandler [Op.set "a" 3]).client).2
      "a" 5 3 (by decide) (by decide)).2.1

/-- C9: Flat-log shape.  On every reachable state the log is empty or its
oldest element is the marker pushed by the outermost open `begin` (so
every undo entry is preceded by a marker), the log is non-empty exactly
when a marker is present (an open scope), and on a non-empty log the
replay loop of `__apply_rollback__` stops at a marker without error —
it never reads `transaction_log[-1]` of an empty list. -/
theorem c9_flat_log_shape (h : TransactionsHandler) (hre : Reachable h) :
    (h.transaction_log = [] ∨ lastIsMarker h.transaction_log = true) ∧
    (h.transaction_log ≠ [] ↔ LogItem.marker ∈ h.transaction_log) ∧
    (h.transaction_log ≠ [] →
      (applyRollback h.transaction_log h.client).2.2 = none ∧
      ∃ L0, (applyRollback h.transaction_log h.client).1 = LogItem.marker :: L0) := by
  have hi := reachable_inv h hre
  refine ⟨hi.closed, ⟨?_, ?_⟩, ?_⟩
  · intro hne
    rcases hi.closed with hcl | hcl
    · exact absurd hcl hne
    · exact marker_mem_of_lastIsMarker _ hcl
  · intro hmem
    exact List.ne_nil_of_mem hmem
  · intro hne
    obtain ⟨_, h2, h3⟩ := rollback_succeeds_of_HInv h hi hne
    exact ⟨h2, h3⟩

theorem c9_flat_log_shape_witness :
    ((runOps initHandler [Op.begin, Op.set "a" 1]).transaction_log ≠ []
      ↔ LogItem.marker ∈ (runOps initHandler [Op.begin, Op.set "a" 1]).transaction_log) ∧
    (applyRollback (runOps initHandler [Op.begin, Op.set "a" 1]).transaction_log
      (runOps initHandler [Op.begin, Op.set "a" 1]).client).2.2 = none :=
  ⟨(c9_flat_log_shape (runOps initHandler [Op.begin, Op.set "a" 1])
      ⟨[Op.begin, Op.set "a" 1], rfl⟩).2.1,
   ((c9_flat_log_shape (runOps initHandler [Op.begin, Op.set "a" 1])
      ⟨[Op.begin, Op.set "a" 1], rfl⟩).2.2 (by decide)).1⟩
